import Mathlib

/-!
Verification of the flattening and column-reconciliation pipeline of
`src/data-scripts/scrape/scraper.py` (repository `diagram-chasing/food-listings`).

The pipeline is shallowly embedded: pandas DataFrames become a rectangular
`Table` (ordered column names, row-major cells), scalar cells become `Val`
(string / integer number / boolean / missing), and each line of
`process_menu_data` becomes one explicit step.  Python exceptions are made
explicit with `Except`.  Numeric literals are modelled as optionally signed
decimal integers, the fragment the claims exercise.
-/

/-! ## Definitions: the embedded program -/

/-- Scalar cell values: Python strings, numbers (modelled as integers),
booleans, and the missing marker (Python `None` / pandas `NaN`). -/
inductive Val where
  | str (s : String)
  | num (n : Int)
  | boolean (b : Bool)
  | null
deriving DecidableEq, Repr

/-- Python truthiness, as used by `filter(None, ...)` in `clean_tag_columns`:
the empty string, zero, `False` and the missing marker are falsy. -/
def Val.truthy : Val → Bool
  | .str s => s ≠ ""
  | .num n => n ≠ 0
  | .boolean b => b
  | .null => false

/-- A nested record: a tree of mappings, sequences and scalars
(the JSON item structure fed to `flatten_dict`). -/
inductive Node where
  | scalar (v : Val)
  | seq (xs : List Node)
  | map (fields : List (String × Node))

/-- One insertion into a Python dict built from a pair list: an existing key
keeps its (first-insertion) position but its value is overwritten; a new key
is appended at the end. -/
def insertPair : List (String × Val) → String → Val → List (String × Val)
  | [], k, v => [(k, v)]
  | p :: rest, k, v =>
      if p.1 = k then (k, v) :: rest else p :: insertPair rest k v

/-- Python `dict(items)`: fold the pair list from the left, later pairs
overwriting the values of earlier pairs with the same key. -/
def dictOfList (l : List (String × Val)) : List (String × Val) :=
  l.foldl (fun d p => insertPair d p.1 p.2) []

/-- Lookup in a pair list (first match), i.e. lookup in the dict once keys
are unique. -/
def pairLookup : List (String × Val) → String → Option Val
  | [], _ => none
  | p :: rest, k => if p.1 = k then some p.2 else pairLookup rest k

/-- The key built by `flatten_dict`: an f-string `f"{parent_key}{sep}{k}"`
when a parent key is present, else the bare key (separator `_`). -/
def joinKey (parentKey k : String) : String :=
  if parentKey = "" then k else parentKey ++ "_" ++ k

/-- The list branch of `flatten_dict` (lines 117-123 of scraper.py): scalar
elements are emitted under indexed keys `newKey_i`; elements that are
themselves dicts or lists are skipped. -/
def seqItems (newKey : String) (i : Nat) : List Node → List (String × Val)
  | [] => []
  | Node.scalar v :: rest => (newKey ++ "_" ++ toString i, v) :: seqItems newKey (i + 1) rest
  | Node.seq _ :: rest => seqItems newKey (i + 1) rest
  | Node.map _ :: rest => seqItems newKey (i + 1) rest

mutual

/-- The items contributed by one dict value under its already-joined key
`nk`: dict children recurse (their own `dict(...)` applied, as in the
source, which calls `.items()` on the recursive result), list children go
through the indexed-key branch, scalars are emitted directly. -/
def flattenField : Node → String → List (String × Val)
  | Node.scalar v, nk => [(nk, v)]
  | Node.seq xs, nk => seqItems nk 0 xs
  | Node.map f2, nk => dictOfList (flattenItems f2 nk)

/-- The item accumulation of `flatten_dict` before the final
`dict(items)`. -/
def flattenItems : List (String × Node) → String → List (String × Val)
  | [], _ => []
  | (k, n) :: rest, pk => flattenField n (joinKey pk k) ++ flattenItems rest pk

end

/-- `flatten_dict(d)` (scraper.py lines 109-127): accumulate items, then
build the Python dict. -/
def flatten_dict (d : List (String × Node)) : List (String × Val) :=
  dictOfList (flattenItems d "")

/-- Is the node a bare scalar? -/
def isScalarNode : Node → Bool
  | Node.scalar _ => true
  | _ => false

mutual

/-- No sequence element below this node is itself a mapping or a
sequence. -/
def noCompositeNode : Node → Bool
  | Node.scalar _ => true
  | Node.seq xs => xs.all isScalarNode
  | Node.map fs => noCompositeSeq fs

/-- Decides that no sequence element anywhere in the record is itself a
mapping or a sequence (the hypothesis of the flatten correctness claim). -/
def noCompositeSeq : List (String × Node) → Bool
  | [] => true
  | (_, n) :: rest => noCompositeNode n && noCompositeSeq rest

end

/-- One component of the path from the root to a leaf: a mapping key or a
sequence-element index. -/
inductive PathComp where
  | key (k : String)
  | idx (i : Nat)
deriving DecidableEq, Repr

mutual

/-- Modelled from the spec's words for the flatten claim: the scalar leaves
of a node, each with the path of mapping keys (and sequence-element indices)
from the root to that leaf. -/
def leafEntries : Node → List (List PathComp × Val)
  | Node.scalar v => [([], v)]
  | Node.seq xs => leafSeq 0 xs
  | Node.map fs => leafMap fs

/-- Leaves of the elements of a sequence, paths extended with the element
index (counting from `i`). -/
def leafSeq (i : Nat) : List Node → List (List PathComp × Val)
  | [] => []
  | e :: rest =>
      (leafEntries e).map (fun q => (PathComp.idx i :: q.1, q.2)) ++ leafSeq (i + 1) rest

/-- Leaves of the fields of a mapping, paths extended with the field key. -/
def leafMap : List (String × Node) → List (List PathComp × Val)
  | [] => []
  | (k, n) :: rest =>
      (leafEntries n).map (fun q => (PathComp.key k :: q.1, q.2)) ++ leafMap rest

end

/-- The claim's joining rule, applied uniformly to every path component:
join with an underscore unless the prefix accumulated so far is empty. -/
def claimKeyStep (pre : String) : PathComp → String
  | PathComp.key k => joinKey pre k
  | PathComp.idx i => joinKey pre (toString i)

/-- The claim's key of a whole path. -/
def claimKey (p : List PathComp) : String := p.foldl claimKeyStep ""

/-- The joining rule the code implements: mapping keys go through the
falsiness-guarded f-string (no separator when the prefix so far is empty),
while sequence indices are always attached with a separator
(`f"{new_key}_{i}"`, unguarded). -/
def codeKeyStep (pre : String) : PathComp → String
  | PathComp.key k => joinKey pre k
  | PathComp.idx i => pre ++ "_" ++ toString i

/-- The code's key of a path, starting from an accumulated prefix. -/
def codeKeyFrom (pre : String) (p : List PathComp) : String := p.foldl codeKeyStep pre

/-- Modelled from the claim's words: one flat entry per scalar leaf, keyed
by the claim's uniform join of the leaf's path. -/
def specFlattenClaim (d : List (String × Node)) : List (String × Val) :=
  (leafEntries (Node.map d)).map (fun q => (claimKey q.1, q.2))

/-- The amended spec-side flatten: one flat entry per scalar leaf, keyed by
the code's joining rule over the leaf's path. -/
def specFlattenAm (d : List (String × Node)) : List (String × Val) :=
  (leafEntries (Node.map d)).map (fun q => (codeKeyFrom "" q.1, q.2))

/-- The value of the last entry carrying a key — the dict value under
last-write-wins. -/
def lastVal (l : List (String × Val)) (k : String) : Option Val :=
  pairLookup l.reverse k

/-- Strips one trailing `_<digits>` run from a character list, mirroring
`re.sub(r'_\d+$', '', col)`: working from the right, a nonempty run of
digits preceded by an underscore is removed together with that underscore. -/
def stripDigitSuffixL (l : List Char) : List Char :=
  let r := l.reverse
  let ds := r.takeWhile Char.isDigit
  if ds.isEmpty then l
  else
    match r.drop ds.length with
    | '_' :: rest => rest.reverse
    | _ => l

/-- The literal token removed by `col.replace('item_', '')`. -/
def itemTok : List Char := ['i', 't', 'e', 'm', '_']

/-- Python `col.replace('item_', '')`: scan left to right, removing every
non-overlapping occurrence of the token. -/
def removeItemL : List Char → List Char
  | 'i' :: 't' :: 'e' :: 'm' :: '_' :: rest => removeItemL rest
  | c :: rest => c :: removeItemL rest
  | [] => []

/-- String wrapper for `re.sub(r'_\d+$', '', col)`. -/
def stripDigitSuffix (s : String) : String := ⟨stripDigitSuffixL s.data⟩

/-- String wrapper for `col.replace('item_', '')`. -/
def removeItem (s : String) : String := ⟨removeItemL s.data⟩

/-- `clean_column_name` (scraper.py lines 8-17): strip a trailing numeric
suffix, remove the `item_` token, then special-case a resulting `name`. -/
def clean_column_name (col : String) : String :=
  let c1 := stripDigitSuffix col
  let c2 := removeItem c1
  if c2 = "name" then "item_name" else c2

/-- Modelled from the claim's words (the reading under test for the rename
claim): the `item_` token is stripped only when it occurs as a prefix of the
column name. -/
def clean_column_name_prefixOnly (col : String) : String :=
  let c1 := stripDigitSuffix col
  let c2 := if itemTok.isPrefixOf c1.data then ⟨c1.data.drop 5⟩ else c1
  if c2 = "name" then "item_name" else c2

/-- Errors surfaced by the pipeline: `KeyError` from `sort_values` on a
missing sort column, and `TypeError` (joining non-string values, comparing
mixed string/number sort keys, or `pd.to_numeric` applied to the multi-column
selection a duplicated label produces). -/
inductive Err where
  | keyError (col : String)
  | typeError
deriving DecidableEq, Repr

/-- A pandas DataFrame, modelled rectangularly: an ordered list of column
names (duplicates allowed, as in pandas) and row-major cells. -/
structure Table where
  cols : List String
  rows : List (List Val)
deriving DecidableEq, Repr

/-- Cell access within a row; positions beyond the row read as missing. -/
def cellAt (r : List Val) (j : Nat) : Val := r.getD j Val.null

/-- The values of the column at position `j`. -/
def getColumn (t : Table) (j : Nat) : List Val := t.rows.map (fun r => cellAt r j)

/-- Select columns by label, in the listed order (`df[names]`): each named
column is resolved to its first position.  Used only with distinct labels,
where this coincides with pandas selection. -/
def selectByNames (t : Table) (names : List String) : Table :=
  ⟨names, t.rows.map (fun r => names.map (fun n => cellAt r (t.cols.indexOf n)))⟩

/-- First-seen-order union of the keys of all records, the column index
`pd.DataFrame(list_of_dicts)` builds. -/
def unionKeys (batch : List (List (String × Val))) : List String :=
  batch.foldl
    (fun acc r => r.foldl
      (fun acc2 p => if acc2.contains p.1 then acc2 else acc2 ++ [p.1]) acc) []

/-- `pd.DataFrame(all_items)`: columns are the first-seen union of the
record keys; a record missing a key gets the missing marker there. -/
def mkDataFrame (batch : List (List (String × Val))) : Table :=
  let cols := unionKeys batch
  ⟨cols,
   batch.map (fun r => cols.map (fun c => (pairLookup (dictOfList r) c).getD Val.null))⟩

/-- Line 132 of scraper.py: rename every column with `clean_column_name`. -/
def renameCols (t : Table) : Table :=
  ⟨t.cols.map clean_column_name, t.rows⟩

/-- The fixed numeric-column set of `process_menu_data` (line 135). -/
def numeric_cols : List String :=
  ["price", "rating_value", "min_price", "max_price", "default_price", "display_price"]

/-- Accumulate the value of a digit string. -/
def digitsToNat (l : List Char) : Nat :=
  l.foldl (fun a c => a * 10 + (c.toNat - 48)) 0

/-- Parse an optionally signed decimal integer literal, the fragment of
`pd.to_numeric` cell parsing the claims exercise. -/
def parseNum (s : String) : Option Int :=
  match s.data with
  | [] => none
  | '-' :: rest =>
      if rest.isEmpty then none
      else if rest.all Char.isDigit then some (-(digitsToNat rest : Int)) else none
  | l => if l.all Char.isDigit then some ((digitsToNat l : Int)) else none

/-- Parse one cell as a number: numeric strings convert, numbers stay,
booleans convert to 0/1, missing stays missing, anything else fails. -/
def cellParse : Val → Option Val
  | Val.str s => (parseNum s).map Val.num
  | Val.num n => some (Val.num n)
  | Val.boolean b => some (Val.num (if b then 1 else 0))
  | Val.null => some Val.null

/-- Attempt to parse every cell of a column; `none` as soon as one cell
fails. -/
def parseAllCells : List Val → Option (List Val)
  | [] => some []
  | v :: vs =>
      match cellParse v, parseAllCells vs with
      | some w, some ws => some (w :: ws)
      | _, _ => none

/-- `pd.to_numeric(series, errors='ignore')`: the conversion is attempted on
the whole column; if any cell fails to parse, the entire column is returned
unchanged. -/
def toNumericSeries (cells : List Val) : List Val :=
  (parseAllCells cells).getD cells

/-- Overwrite the column at position `j` with the given cells. -/
def setColumn (t : Table) (j : Nat) (newCells : List Val) : Table :=
  ⟨t.cols, (t.rows.zip newCells).map (fun p => p.1.set j p.2)⟩

/-- One iteration of the numeric-conversion loop (lines 136-138): a column
absent is skipped; a label duplicated after renaming makes `df[col]` a
two-column selection on which `pd.to_numeric` raises `TypeError`; otherwise
the single column is converted. -/
def convertOne (t : Table) (col : String) : Except Err Table :=
  if t.cols.count col = 0 then pure t
  else if 1 < t.cols.count col then throw Err.typeError
  else
    let j := t.cols.indexOf col
    pure (setColumn t j (toNumericSeries (getColumn t j)))

/-- Lines 134-138: convert each column of the fixed numeric set. -/
def convertNumericCols (t : Table) : Except Err Table :=
  numeric_cols.foldlM convertOne t

/-- Does the column name match `re.match(r'<g>_\d+', col)`: the group name,
an underscore, then at least one digit (anything may follow, since
`re.match` only anchors at the start)? -/
def matchesGroup (g col : String) : Bool :=
  (g.data ++ ['_']).isPrefixOf col.data &&
    (match col.data.drop (g.length + 1) with
     | c :: _ => c.isDigit
     | [] => false)

/-- The names of the columns matching the group pattern, in column order
(`[col for col in df.columns if re.match(pattern, col)]`). -/
def matchingNames (g : String) (t : Table) : List String :=
  t.cols.filter (fun c => matchesGroup g c)

/-- Collect string cells left to right, failing like `str.join` at the
first non-string cell. -/
def strsOfCells : List Val → Except Err (List String)
  | [] => pure []
  | Val.str s :: vs => (strsOfCells vs).map (fun l => s :: l)
  | _ :: _ => throw Err.typeError

/-- One row of `', '.join(filter(None, x.dropna()))`: drop missing cells,
drop falsy cells, then join — `str.join` raises `TypeError` on any
remaining non-string cell. -/
def joinCells (cells : List Val) : Except Err String := do
  let kept := (cells.filter (fun v => decide (v ≠ Val.null))).filter Val.truthy
  let strs ← strsOfCells kept
  pure (String.intercalate ", " strs)

/-- Row-by-row join of the matched columns (positions `js`), failing as soon
as one row's join fails. -/
def joinRows (js : List Nat) : List (List Val) → Except Err (List String)
  | [] => Except.ok []
  | r :: rs =>
      (joinCells (js.map (fun j => cellAt r j))).bind (fun s =>
        (joinRows js rs).bind (fun ss => Except.ok (s :: ss)))

/-- Assignment `df[name] = cells`: an existing label is overwritten (every
position carrying it), a new label is appended as the last column. -/
def assignColumn (t : Table) (name : String) (cells : List Val) : Table :=
  if name ∈ t.cols then
    let js := (t.cols.enum.filter (fun p => p.2 == name)).map (fun p => p.1)
    ⟨t.cols, (t.rows.zip cells).map (fun p => js.foldl (fun r j => r.set j p.2) p.1)⟩
  else
    ⟨t.cols ++ [name], (t.rows.zip cells).map (fun p => p.1 ++ [p.2])⟩

/-- Drop every column whose name is in the list (`df.drop(columns=...)`):
the remaining columns keep their order and values. -/
def dropByNames (t : Table) (names : List String) : Table :=
  ⟨t.cols.filter (fun c => !(names.contains c)),
   t.rows.map (fun r =>
     ((t.cols.zip r).filter (fun p => !(names.contains p.1))).map Prod.snd)⟩

/-- One iteration of the loop of `clean_tag_columns` (lines 46-54): if any
column matches the group pattern, the group column is assigned to the
per-row comma-join of the matched columns (matched-column order) and the
matched columns are dropped by name.  The matched columns are selected by
position, which coincides with the source's by-name selection whenever the
matched names are distinct. -/
def collapseGroup (t : Table) (g : String) : Except Err Table :=
  if (matchingNames g t).isEmpty then Except.ok t
  else
    (joinRows ((matchingNames g t).map (fun c => t.cols.indexOf c)) t.rows).bind
      (fun joined =>
        Except.ok (dropByNames (assignColumn t g (joined.map Val.str))
          (matchingNames g t)))

/-- `clean_tag_columns` (lines 37-56), applied at its place in the pipeline:
the three groups are processed in dict order. -/
def clean_tag_columns (t : Table) : Except Err Table :=
  ["tag_slugs", "service_slugs", "dietary_slugs"].foldlM collapseGroup t

/-- The distinct names of a list in first-appearance order, tracking the
names already seen. -/
def dedupNamesAux (seen : List String) : List String → List String
  | [] => []
  | n :: rest =>
      if seen.contains n then dedupNamesAux seen rest
      else n :: dedupNamesAux (seen ++ [n]) rest

/-- The distinct names of a list in first-appearance order. -/
def dedupNames (l : List String) : List String := dedupNamesAux [] l

/-- Line 144, `df.loc[:, ~df.columns.duplicated()]`: keep only the first
occurrence of every column name — selecting, for each distinct name in
first-appearance order, the column at its first position. -/
def dedupCols (t : Table) : Table :=
  selectByNames t (dedupNames t.cols)

/-- The priority list of `organize_columns` (lines 22-26). -/
def priority_cols : List String :=
  ["category", "item_name", "price", "desc", "dietary_slugs",
   "rating_value", "rating_total_rating_text", "item_state",
   "tag_slugs", "service_slugs"]

/-- `organize_columns` (lines 19-35): priority columns present come first in
priority order, the remaining columns follow in their current order. -/
def organize_columns (t : Table) : Table :=
  let p := priority_cols.filter (fun c => t.cols.contains c)
  let o := t.cols.filter (fun c => !(p.contains c))
  selectByNames t (p ++ o)

/-- The denylist of lines 150-151. -/
def cols_to_drop : List String :=
  ["fb_slug", "name_slug", "item_metadata", "tracking_dish_type",
   "item_tag_image", "tag_images", "tag_texts", "tag_objects"]

/-- Lines 150-152: drop the denylisted columns present. -/
def dropDenylist (t : Table) : Table := dropByNames t cols_to_drop

/-- Rank used to order cells of a sort-key column: missing values sort last
(`na_position='last'`); the string/number rank split is immaterial within
one call because mixed columns are rejected before sorting. -/
def vRank : Val → Nat
  | Val.null => 2
  | Val.str _ => 1
  | _ => 0

/-- Numeric component of the sort key (booleans compare as 0/1, as in
Python). -/
def vNum : Val → Int
  | Val.num n => n
  | Val.boolean b => if b then 1 else 0
  | _ => 0

/-- String component of the sort key. -/
def vStr : Val → String
  | Val.str s => s
  | _ => ""

/-- Lexicographic (code-point) strict comparison of character lists, the
order Python uses on strings. -/
def strLtB : List Char → List Char → Bool
  | [], [] => false
  | [], _ :: _ => true
  | _ :: _, [] => false
  | a :: as, b :: bs => decide (a < b) || (a == b && strLtB as bs)

/-- Strict ascending comparison of two cells of one sort-key column. -/
def valLT (a b : Val) : Bool :=
  decide (vRank a < vRank b) ||
    (vRank a == vRank b &&
      (decide (vNum a < vNum b) || (vNum a == vNum b && strLtB (vStr a).data (vStr b).data)))

/-- Sort-key equality of two cells. -/
def valEqKey (a b : Val) : Bool :=
  vRank a == vRank b && vNum a == vNum b && vStr a == vStr b

/-- Row comparison for `df.sort_values(['category', 'price'])`: category
ascending, then price ascending. -/
def rowLE (ci pj : Nat) (r s : List Val) : Bool :=
  valLT (cellAt r ci) (cellAt s ci) ||
    (valEqKey (cellAt r ci) (cellAt s ci) &&
      (valLT (cellAt r pj) (cellAt s pj) || valEqKey (cellAt r pj) (cellAt s pj)))

/-- Is the cell a string? -/
def isStrCell : Val → Bool
  | Val.str _ => true
  | _ => false

/-- Is the cell numeric-like (number or boolean) for comparison purposes? -/
def isNumLikeCell : Val → Bool
  | Val.num _ => true
  | Val.boolean _ => true
  | _ => false

/-- A sort-key column containing both a string and a number (or boolean)
makes the underlying Python comparisons raise `TypeError`. -/
def comparableColumn (cells : List Val) : Bool :=
  !(cells.any isStrCell && cells.any isNumLikeCell)

/-- Line 155, `df.sort_values(['category', 'price'])`: `KeyError` when a sort
column is absent, `TypeError` when a sort column mixes strings with numbers,
otherwise a stable ascending sort on (category, price) with missing keys
last. -/
def sortStep (t : Table) : Except Err Table :=
  if "category" ∉ t.cols then Except.error (Err.keyError "category")
  else if "price" ∉ t.cols then Except.error (Err.keyError "price")
  else if comparableColumn (getColumn t (t.cols.indexOf "category")) &&
          comparableColumn (getColumn t (t.cols.indexOf "price")) then
    Except.ok ⟨t.cols,
      List.insertionSort
        (fun r s =>
          rowLE (t.cols.indexOf "category") (t.cols.indexOf "price") r s = true)
        t.rows⟩
  else Except.error Err.typeError

/-- `process_menu_data` (lines 129-157): rename, numeric conversion, tag
collapsing, column dedup, column ordering, denylist pruning, row sort. -/
def process_menu_data (t : Table) : Except Err Table :=
  (convertNumericCols (renameCols t)).bind (fun t2 =>
    (clean_tag_columns t2).bind (fun t3 =>
      sortStep (dropDenylist (organize_columns (dedupCols t3)))))

/-- The reconciler of the spec: build the DataFrame from the flat-record
batch and process it. -/
def reconcile (batch : List (List (String × Val))) : Except Err Table :=
  process_menu_data (mkDataFrame batch)

/-- A one-row batch carrying the claim's indexed tag columns, together with
the category and price columns the final sort requires. -/
def c1Batch : List (List (String × Val)) :=
  [[("category", Val.str "A"), ("price", Val.str "1"),
    ("tag_slugs_0", Val.str "veg"), ("tag_slugs_1", Val.str "spicy"),
    ("tag_slugs_2", Val.str "")]]

/-- A two-row batch whose price column mixes a parseable and an unparseable
cell. -/
def c2Batch : List (List (String × Val)) :=
  [[("category", Val.str "A"), ("price", Val.str "199")],
   [("category", Val.str "B"), ("price", Val.str "N/A")]]

/-- A record exercising the divergence: the root key is empty and its value a
scalar-only list. -/
def c4Cex : List (String × Node) := [("", Node.seq [Node.scalar (Val.num 5)])]

/-- A witness record with nested mapping, list and scalar leaves. -/
def c4Wit : List (String × Node) :=
  [("a", Node.scalar (Val.num 1)),
   ("b", Node.map [("c", Node.scalar (Val.str "x"))]),
   ("d", Node.seq [Node.scalar (Val.num 7), Node.scalar (Val.str "y")])]

/-- The values of the column carrying a name, read at its first
position. -/
def colVals (t : Table) (name : String) : List Val :=
  t.rows.map (fun r => cellAt r (t.cols.indexOf name))

/-- A concrete three-column table with unique names. -/
def c9Wit : Table :=
  ⟨["x", "price", "category"], [[Val.num 1, Val.num 2, Val.str "A"]]⟩

/-- A two-column table whose only row is entirely missing or empty in the
matched columns. -/
def c10Wit : Table :=
  ⟨["tag_slugs_0", "tag_slugs_1"], [[Val.null, Val.str ""]]⟩

/-- The spec's end-to-end example batch. -/
def c7Batch : List (List (String × Val)) :=
  [[("category", Val.str "Starters"), ("price", Val.str "150"), ("name", Val.str "Soup")],
   [("category", Val.str "Mains"), ("price", Val.str "80"), ("name", Val.str "Rice")]]

/-- The table the pipeline produces for the example batch: Mains(80) sorts
before Starters(150). -/
def c7Expected : Table :=
  ⟨["category", "item_name", "price"],
   [[Val.str "Mains", Val.str "Rice", Val.num 80],
    [Val.str "Starters", Val.str "Soup", Val.num 150]]⟩

/-- A nonempty batch with category and price present whose malformed cell
(a number in a column the tag pattern matches) makes the join raise. -/
def c3Batch : List (List (String × Val)) :=
  [[("category", Val.str "A"), ("price", Val.str "1"), ("tag_slugs_1_x", Val.num 5)]]

/-- The table an Except carries, with an empty table for errors. -/
def okD : Except Err Table → Table
  | Except.ok u => u
  | Except.error _ => ⟨[], []⟩

/-- A table whose first and third columns share a name. -/
def c8Wit : Table :=
  ⟨["desc", "price", "desc"], [[Val.str "x", Val.num 2, Val.str "y"]]⟩

/-- A batch whose raw columns desc and item_desc collide after renaming. -/
def c8Batch : List (List (String × Val)) :=
  [[("category", Val.str "A"), ("price", Val.str "2"),
    ("desc", Val.str "x"), ("item_desc", Val.str "y")]]

/-! ## Theorems -/

/-- C1: the claim says the indexed tag columns are collapsed from the
pre-rename names, so this batch should yield tag_slugs = "veg, spicy".  The
code renames first (tag_slugs_0/1/2 all become tag_slugs), the digit-suffix
pattern then matches nothing, and deduplication keeps only the first
column's value: the pipeline outputs "veg" instead.  The second conjunct
shows the collapsing function itself, applied before renaming as the claim
(and the function's own docstring) intends, does produce "veg, spicy". -/
theorem C1_collapse_runs_after_rename :
    reconcile c1Batch =
      Except.ok ⟨["category", "price", "tag_slugs"],
                 [[Val.str "A", Val.num 1, Val.str "veg"]]⟩ ∧
    clean_tag_columns (mkDataFrame c1Batch) =
      Except.ok ⟨["category", "price", "tag_slugs"],
                 [[Val.str "A", Val.str "1", Val.str "veg, spicy"]]⟩ ∧
    Val.str "veg" ≠ Val.str "veg, spicy" :=
  ⟨rfl, rfl, by decide⟩

/-- C2 counterexample: the claim says the cell "199" becomes the number 199
even when "N/A" sits in the same column; with `errors='ignore'` the failed
parse of "N/A" leaves the whole column unchanged, so "199" stays a
string. -/
theorem C2_counterexample :
    reconcile c2Batch =
      Except.ok ⟨["category", "price"],
                 [[Val.str "A", Val.str "199"], [Val.str "B", Val.str "N/A"]]⟩ ∧
    Val.str "199" ≠ Val.num 199 :=
  ⟨rfl, by decide⟩

/-- Parsing a whole column succeeds exactly on the per-cell parses when
every cell parses. -/
theorem parseAllCells_eq_some (cells : List Val)
    (h : ∀ v ∈ cells, (cellParse v).isSome) :
    parseAllCells cells = some (cells.map (fun v => (cellParse v).getD v)) := by
  induction cells with
  | nil => rfl
  | cons v vs ih =>
      obtain ⟨w, hw⟩ := Option.isSome_iff_exists.mp (h v (by simp))
      simp [parseAllCells, hw, ih (fun x hx => h x (by simp [hx]))]

/-- Parsing a whole column fails when any cell fails. -/
theorem parseAllCells_eq_none (cells : List Val)
    (h : ∃ v ∈ cells, cellParse v = none) :
    parseAllCells cells = none := by
  induction cells with
  | nil => simp at h
  | cons v vs ih =>
      by_cases hv : cellParse v = none
      · simp [parseAllCells, hv]
      · obtain ⟨x, hx, hxn⟩ := h
        rcases List.mem_cons.mp hx with rfl | hxs
        · exact absurd hxn hv
        · simp [parseAllCells, ih ⟨x, hxs, hxn⟩]

/-- A successful whole-column parse preserves the number of cells. -/
theorem parseAllCells_length (cells out : List Val)
    (h : parseAllCells cells = some out) : out.length = cells.length := by
  induction cells generalizing out with
  | nil => simp [parseAllCells] at h; simp [← h]
  | cons v vs ih =>
      simp only [parseAllCells] at h
      cases hv : cellParse v with
      | none => rw [hv] at h; simp at h
      | some w =>
          rw [hv] at h
          cases hvs : parseAllCells vs with
          | none => rw [hvs] at h; simp at h
          | some ws =>
              rw [hvs] at h
              simp only [Option.some.injEq] at h
              simp [← h, ih ws hvs]

/-- C2 amended: numeric coercion is per column, not per cell — a column in
which every cell parses is converted cellwise; a column containing any
unparseable cell is returned entirely unchanged; either way no error is
raised and the number of cells is preserved. -/
theorem C2_columnwise_coercion (cells : List Val) :
    ((∀ v ∈ cells, (cellParse v).isSome) →
        toNumericSeries cells = cells.map (fun v => (cellParse v).getD v)) ∧
    ((∃ v ∈ cells, cellParse v = none) → toNumericSeries cells = cells) ∧
    (toNumericSeries cells).length = cells.length := by
  refine ⟨fun h => ?_, fun h => ?_, ?_⟩
  · simp [toNumericSeries, parseAllCells_eq_some cells h]
  · simp [toNumericSeries, parseAllCells_eq_none cells h]
  · cases h : parseAllCells cells with
    | none => simp [toNumericSeries, h]
    | some out => simp [toNumericSeries, h, parseAllCells_length cells out h]

/-- C2 witness: at the counterexample column, the unparseable "N/A" leaves
"199" a string; at an all-numeric column, conversion happens cellwise. -/
theorem C2_columnwise_coercion_witness :
    toNumericSeries [Val.str "199", Val.str "N/A"] = [Val.str "199", Val.str "N/A"] ∧
    toNumericSeries [Val.str "199", Val.str "80"] = [Val.num 199, Val.num 80] := by
  constructor
  · exact (C2_columnwise_coercion [Val.str "199", Val.str "N/A"]).2.1
      ⟨Val.str "N/A", by decide, by decide⟩
  · have h := (C2_columnwise_coercion [Val.str "199", Val.str "80"]).1
      (by decide)
    simpa using h

/-- C6 counterexample: the claim says the item_ token is stripped only when
it is a prefix; the code removes it anywhere, so a_item_b becomes a_b while
the claimed reading leaves it unchanged. -/
theorem C6_counterexample :
    clean_column_name "a_item_b" = "a_b" ∧
    clean_column_name_prefixOnly "a_item_b" = "a_item_b" ∧
    "a_b" ≠ "a_item_b" :=
  ⟨rfl, rfl, by decide⟩

/-- Characters other than `i` can never begin an occurrence of the token,
so the scan copies them unchanged. -/
theorem removeItemL_cons_ne (c : Char) (l : List Char) (h : c ≠ 'i') :
    removeItemL (c :: l) = c :: removeItemL l := by
  rw [removeItemL.eq_def]
  split
  · rename_i heq
    rw [List.cons.injEq] at heq
    exact absurd heq.1 h
  · rename_i c2 rest2 hno heq
    rw [List.cons.injEq] at heq
    rw [heq.1, heq.2]
  · rename_i x heq
    exact absurd heq (List.cons_ne_nil c l)

/-- The scan removes a token occurrence sitting after any i-free
portion. -/
theorem removeItemL_append_tok (ls lt : List Char) (h : ∀ c ∈ ls, c ≠ 'i') :
    removeItemL (ls ++ 'i' :: 't' :: 'e' :: 'm' :: '_' :: lt) = ls ++ removeItemL lt := by
  induction ls with
  | nil => simp [removeItemL]
  | cons c cs ih =>
      rw [List.cons_append, removeItemL_cons_ne c _ (h c (by simp)),
        ih (fun x hx => h x (by simp [hx]))]
      simp

/-- An i-free character list is left untouched by the scan. -/
theorem removeItemL_id (ls : List Char) (h : ∀ c ∈ ls, c ≠ 'i') :
    removeItemL ls = ls := by
  induction ls with
  | nil => rfl
  | cons c cs ih =>
      rw [removeItemL_cons_ne c _ (h c (by simp)), ih (fun x hx => h x (by simp [hx]))]

/-- C6 amended: cleanup strips one trailing digit suffix, removes the
literal token item_ at every occurrence (left to right, not only as a
prefix), and checks the name special case last; in particular name becomes
item_name and item_price_3 becomes price, and the token is removed after
any i-free portion of the name, not only at the start. -/
theorem C6_cleanup_removes_token_everywhere :
    clean_column_name "name" = "item_name" ∧
    clean_column_name "item_price_3" = "price" ∧
    (∀ col : String,
        clean_column_name col =
          (if removeItem (stripDigitSuffix col) = "name" then "item_name"
           else removeItem (stripDigitSuffix col))) ∧
    (∀ s t : String, (∀ c ∈ s.data, c ≠ 'i') →
        removeItem (s ++ "item_" ++ t) = s ++ removeItem t) ∧
    (∀ s : String, (∀ c ∈ s.data, c ≠ 'i') → removeItem s = s) := by
  refine ⟨rfl, rfl, fun col => rfl, fun s t h => ?_, fun s h => ?_⟩
  · apply String.ext
    have : (s ++ "item_" ++ t).data = s.data ++ 'i' :: 't' :: 'e' :: 'm' :: '_' :: t.data := by
      simp
    simp [removeItem, this, removeItemL_append_tok s.data t.data h]
  · apply String.ext
    simp [removeItem, removeItemL_id s.data h]

/-- C6 amended witness: the token is removed at a non-prefix occurrence
(conjunct four at s = "a_", t = "b"), and an i-free name is untouched
(conjunct five at "desc"). -/
theorem C6_cleanup_removes_token_everywhere_witness :
    removeItem ("a_" ++ "item_" ++ "b") = "a_" ++ removeItem "b" ∧
    removeItem "desc" = "desc" := by
  constructor
  · exact C6_cleanup_removes_token_everywhere.2.2.2.1 "a_" "b" (by decide)
  · exact C6_cleanup_removes_token_everywhere.2.2.2.2 "desc" (by decide)

/-- The list branch enumerates elements from a running index and keeps
exactly the scalar ones. -/
theorem seqItems_eq_enumFrom (nk : String) (i : Nat) (xs : List Node) :
    seqItems nk i xs =
      (xs.enumFrom i).filterMap (fun p =>
        match p.2 with
        | Node.scalar v => some (nk ++ "_" ++ toString p.1, v)
        | _ => none) := by
  induction xs generalizing i with
  | nil => rfl
  | cons e rest ih => cases e <;> simp [seqItems, ih]

/-- C5: a sequence element that is itself a mapping or a sequence
contributes zero entries to the flattened items (none of its inner leaves
leak), while a scalar element at index i under prefix p contributes exactly
the entry p_i -> e: a sequence field contributes exactly the enumerated
scalar entries, in order, ahead of the remaining fields' items. -/
theorem C5_composite_seq_elements_vanish (k : String) (xs : List Node)
    (rest : List (String × Node)) (pk : String) :
    flattenItems ((k, Node.seq xs) :: rest) pk =
      (xs.enum.filterMap (fun p =>
        match p.2 with
        | Node.scalar v => some (joinKey pk k ++ "_" ++ toString p.1, v)
        | _ => none)) ++ flattenItems rest pk := by
  simp [flattenItems, flattenField, seqItems_eq_enumFrom, List.enum]

/-- Lookup after one dict insertion. -/
theorem pairLookup_insertPair (d : List (String × Val)) (k k' : String) (v : Val) :
    pairLookup (insertPair d k v) k' = if k' = k then some v else pairLookup d k' := by
  induction d with
  | nil =>
      by_cases h : k' = k
      · simp [insertPair, pairLookup, h]
      · have hk : ¬k = k' := fun e => h e.symm
        simp [insertPair, pairLookup, h, hk]
  | cons p rest ih =>
      by_cases hpk : p.1 = k
      · by_cases h : k' = k
        · subst h
          simp [insertPair, hpk, pairLookup]
        · have hk : ¬k = k' := fun e => h e.symm
          have hp : ¬p.1 = k' := fun e => hk (hpk.symm.trans e)
          simp [insertPair, hpk, pairLookup, h, hk, hp]
      · by_cases hp : p.1 = k'
        · have hk : ¬k' = k := fun e => hpk (hp.trans e)
          simp [insertPair, hpk, pairLookup, hp, hk]
        · simp [insertPair, hpk, pairLookup, hp, ih]

/-- Keys after one dict insertion: unchanged for a present key, appended for
a new one. -/
theorem keys_insertPair (d : List (String × Val)) (k : String) (v : Val) :
    (insertPair d k v).map Prod.fst =
      if k ∈ d.map Prod.fst then d.map Prod.fst else d.map Prod.fst ++ [k] := by
  induction d with
  | nil => simp [insertPair]
  | cons p rest ih =>
      by_cases hpk : p.1 = k
      · simp [insertPair, hpk]
      · have hkp : ¬k = p.1 := fun e => hpk e.symm
        simp only [insertPair, if_neg hpk, List.map_cons, ih]
        by_cases hm : k ∈ rest.map Prod.fst <;> simp [hm, hkp]

/-- Dict insertion preserves key uniqueness. -/
theorem nodupKeys_insertPair (d : List (String × Val)) (k : String) (v : Val)
    (h : (d.map Prod.fst).Nodup) : ((insertPair d k v).map Prod.fst).Nodup := by
  rw [keys_insertPair]
  split
  · exact h
  · rename_i hk
    simp [List.nodup_append, h, hk]

/-- Inserting a fresh key appends the pair. -/
theorem insertPair_notMem (d : List (String × Val)) (k : String) (v : Val)
    (h : k ∉ d.map Prod.fst) : insertPair d k v = d ++ [(k, v)] := by
  induction d with
  | nil => rfl
  | cons p rest ih =>
      simp only [List.map_cons, List.mem_cons, not_or] at h
      have hp : ¬p.1 = k := fun e => h.1 e.symm
      simp [insertPair, hp, ih h.2]

/-- Lookup distributes over append, first list first. -/
theorem pairLookup_append (a b : List (String × Val)) (k : String) :
    pairLookup (a ++ b) k = Option.or (pairLookup a k) (pairLookup b k) := by
  induction a with
  | nil => simp [pairLookup]
  | cons p rest ih =>
      by_cases h : p.1 = k <;> simp [pairLookup, h, ih]

/-- Last-write lookup at a cons. -/
theorem lastVal_cons (p : String × Val) (l : List (String × Val)) (k : String) :
    lastVal (p :: l) k = Option.or (lastVal l k) (if p.1 = k then some p.2 else none) := by
  by_cases h : p.1 = k <;>
    simp [lastVal, List.reverse_cons, pairLookup_append, pairLookup, h]

/-- Last-write lookup over append, second list winning. -/
theorem lastVal_append (a b : List (String × Val)) (k : String) :
    lastVal (a ++ b) k = Option.or (lastVal b k) (lastVal a k) := by
  simp [lastVal, List.reverse_append, pairLookup_append]

/-- Folding dict insertions looks up to the last-written value, falling back
to the accumulator. -/
theorem pairLookup_foldl_insert (l acc : List (String × Val)) (k : String) :
    pairLookup (l.foldl (fun d p => insertPair d p.1 p.2) acc) k =
      Option.or (lastVal l k) (pairLookup acc k) := by
  induction l generalizing acc with
  | nil => simp [lastVal, pairLookup]
  | cons p l' ih =>
      rw [List.foldl_cons, ih, lastVal_cons, pairLookup_insertPair]
      cases hl : lastVal l' k with
      | some w => simp [Option.or]
      | none =>
          by_cases h : p.1 = k
          · simp [Option.or, h]
          · have hk : ¬k = p.1 := fun e => h e.symm
            simp [Option.or, h, hk]

/-- Folding dict insertions keeps keys unique. -/
theorem nodupKeys_foldl_insert (l acc : List (String × Val))
    (h : (acc.map Prod.fst).Nodup) :
    ((l.foldl (fun d p => insertPair d p.1 p.2) acc).map Prod.fst).Nodup := by
  induction l generalizing acc with
  | nil => exact h
  | cons p l' ih => exact ih _ (nodupKeys_insertPair _ _ _ h)

/-- A dict built from a pair list has unique keys. -/
theorem nodupKeys_dictOfList (l : List (String × Val)) :
    ((dictOfList l).map Prod.fst).Nodup :=
  nodupKeys_foldl_insert l [] (by simp)

/-- Folding insertions of fresh, pairwise distinct keys appends. -/
theorem foldl_insert_of_disjoint (l : List (String × Val)) :
    ∀ acc, (l.map Prod.fst).Nodup →
      (∀ x ∈ l.map Prod.fst, x ∉ acc.map Prod.fst) →
      l.foldl (fun d p => insertPair d p.1 p.2) acc = acc ++ l := by
  induction l with
  | nil => simp
  | cons p l' ih =>
      intro acc hnd hdisj
      rw [List.map_cons, List.nodup_cons] at hnd
      rw [List.foldl_cons, insertPair_notMem acc p.1 p.2 (hdisj p.1 (by simp))]
      rw [ih (acc ++ [(p.1, p.2)]) hnd.2 ?_]
      · simp
      · intro x hx
        rw [List.map_append, List.mem_append]
        rintro (hacc | hp1)
        · exact hdisj x (by simp [hx]) hacc
        · simp only [List.map_cons, List.map_nil, List.mem_singleton] at hp1
          exact hnd.1 (hp1 ▸ hx)

/-- A pair list with unique keys is its own dict. -/
theorem dictOfList_eq_self (l : List (String × Val))
    (hnd : (l.map Prod.fst).Nodup) : dictOfList l = l := by
  simpa [dictOfList] using foldl_insert_of_disjoint l [] hnd (by simp)

/-- Lookup of an absent key. -/
theorem pairLookup_eq_none (l : List (String × Val)) (k : String)
    (h : k ∉ l.map Prod.fst) : pairLookup l k = none := by
  induction l with
  | nil => rfl
  | cons p rest ih =>
      simp only [List.map_cons, List.mem_cons, not_or] at h
      have hp : ¬p.1 = k := fun e => h.1 e.symm
      simp [pairLookup, hp, ih h.2]

/-- Last-write lookup of an absent key. -/
theorem lastVal_eq_none (l : List (String × Val)) (k : String)
    (h : k ∉ l.map Prod.fst) : lastVal l k = none :=
  pairLookup_eq_none l.reverse k (by simpa using h)

/-- With unique keys, first-match and last-match lookups agree. -/
theorem pairLookup_eq_lastVal (m : List (String × Val)) (k : String)
    (hnd : (m.map Prod.fst).Nodup) : pairLookup m k = lastVal m k := by
  induction m with
  | nil => rfl
  | cons p rest ih =>
      rw [List.map_cons, List.nodup_cons] at hnd
      rw [lastVal_cons]
      by_cases h : p.1 = k
      · rw [lastVal_eq_none rest k (h ▸ hnd.1)]
        simp [pairLookup, h, Option.or]
      · rw [← ih hnd.2]
        simp [pairLookup, h, Option.or_none]

/-- Looking up a dict finds the last-written value of the underlying
list. -/
theorem lastVal_dictOfList (l : List (String × Val)) (k : String) :
    lastVal (dictOfList l) k = lastVal l k := by
  rw [← pairLookup_eq_lastVal _ _ (nodupKeys_dictOfList l)]
  simpa [dictOfList, pairLookup, Option.or_none] using pairLookup_foldl_insert l [] k

/-- Consuming a mapping-key path component extends the accumulated prefix
through the guarded f-string join. -/
theorem codeKeyFrom_key_cons (pre k : String) (p : List PathComp) :
    codeKeyFrom pre (PathComp.key k :: p) = codeKeyFrom (joinKey pre k) p := rfl

/-- On an all-scalar sequence the list branch produces exactly the leaves,
keyed by the code's joining rule. -/
theorem seqItems_eq_leafSeq (nk : String) (i : Nat) (xs : List Node)
    (h : xs.all isScalarNode = true) :
    seqItems nk i xs = (leafSeq i xs).map (fun q => (codeKeyFrom nk q.1, q.2)) := by
  induction xs generalizing i with
  | nil => rfl
  | cons e rest ih =>
      rw [List.all_cons, Bool.and_eq_true] at h
      cases e with
      | scalar v =>
          simp [seqItems, leafSeq, leafEntries, codeKeyFrom, codeKeyStep, ih (i + 1) h.2]
      | seq ys => exact absurd h.1 (by simp [isScalarNode])
      | map fs => exact absurd h.1 (by simp [isScalarNode])

mutual

/-- The dict value of any key in one flattened field is the last-written
value among that field's leaves. -/
theorem flattenField_lastVal (n : Node) (nk k : String)
    (hc : noCompositeNode n = true) :
    lastVal (flattenField n nk) k =
      lastVal ((leafEntries n).map (fun q => (codeKeyFrom nk q.1, q.2))) k := by
  cases n with
  | scalar v => rfl
  | seq xs =>
      rw [flattenField, seqItems_eq_leafSeq nk 0 xs (by simpa [noCompositeNode] using hc)]
      rfl
  | map f2 =>
      rw [flattenField, lastVal_dictOfList,
        flattenItems_lastVal f2 nk k (by simpa [noCompositeNode] using hc)]
      rfl

/-- The items of a field list look up, under last-write-wins, to the same
values as the leaf entries. -/
theorem flattenItems_lastVal (fs : List (String × Node)) (pk k : String)
    (hc : noCompositeSeq fs = true) :
    lastVal (flattenItems fs pk) k =
      lastVal ((leafMap fs).map (fun q => (codeKeyFrom pk q.1, q.2))) k := by
  cases fs with
  | nil => rfl
  | cons p rest =>
      obtain ⟨k0, n⟩ := p
      have hc' : noCompositeNode n = true ∧ noCompositeSeq rest = true := by
        simpa [noCompositeSeq] using hc
      rw [flattenItems, lastVal_append,
        flattenField_lastVal n (joinKey pk k0) k hc'.1,
        flattenItems_lastVal rest pk k hc'.2, leafMap, List.map_append,
        lastVal_append, List.map_map]
      rfl

end

mutual

/-- With globally distinct leaf keys, one flattened field is exactly its
keyed leaf entries. -/
theorem flattenField_eq (n : Node) (nk : String)
    (hc : noCompositeNode n = true)
    (hnd : ((leafEntries n).map (fun q => codeKeyFrom nk q.1)).Nodup) :
    flattenField n nk = (leafEntries n).map (fun q => (codeKeyFrom nk q.1, q.2)) := by
  cases n with
  | scalar v => rfl
  | seq xs =>
      rw [flattenField, seqItems_eq_leafSeq nk 0 xs (by simpa [noCompositeNode] using hc)]
      rfl
  | map f2 =>
      rw [flattenField,
        flattenItems_eq f2 nk (by simpa [noCompositeNode] using hc) hnd]
      apply dictOfList_eq_self
      simpa [List.map_map, Function.comp_def] using hnd

/-- With globally distinct leaf keys, the items of a field list are exactly
the keyed leaf entries. -/
theorem flattenItems_eq (fs : List (String × Node)) (pk : String)
    (hc : noCompositeSeq fs = true)
    (hnd : ((leafMap fs).map (fun q => codeKeyFrom pk q.1)).Nodup) :
    flattenItems fs pk = (leafMap fs).map (fun q => (codeKeyFrom pk q.1, q.2)) := by
  cases fs with
  | nil => rfl
  | cons p rest =>
      obtain ⟨k0, n⟩ := p
      have hc' : noCompositeNode n = true ∧ noCompositeSeq rest = true := by
        simpa [noCompositeSeq] using hc
      have hnd2 : (((leafEntries n).map (fun q => codeKeyFrom (joinKey pk k0) q.1)) ++
          ((leafMap rest).map (fun q => codeKeyFrom pk q.1))).Nodup := by
        simpa [leafMap, List.map_append, List.map_map, Function.comp_def,
          codeKeyFrom_key_cons] using hnd
      rw [flattenItems,
        flattenField_eq n (joinKey pk k0) hc'.1 hnd2.of_append_left,
        flattenItems_eq rest pk hc'.2 hnd2.of_append_right,
        leafMap, List.map_append, List.map_map]
      rfl

end

/-- C4 counterexample: the record has no composite sequence element, yet
the claim's joining rule — no separator prepended when the path prefix is
empty — yields key "0" for the single leaf, while the code attaches
sequence indices with an unconditional separator and produces "_0". -/
theorem C4_counterexample :
    noCompositeSeq c4Cex = true ∧
    flatten_dict c4Cex = [("_0", Val.num 5)] ∧
    specFlattenClaim c4Cex = [("0", Val.num 5)] ∧
    [(("_0" : String), Val.num 5)] ≠ [(("0" : String), Val.num 5)] :=
  ⟨rfl, rfl, rfl, by decide⟩

/-- C4 amended: for a record with no composite sequence element, flatten
produces exactly one flat entry per scalar leaf whenever the leaf keys are
pairwise distinct, the key being the join of the path where a mapping key
is attached with an underscore unless the prefix so far is empty and a
sequence index is always attached with an underscore; and, collisions or
not, the value the flat record holds at any key is the last-written leaf
value for that key. -/
theorem C4_flatten_one_entry_per_leaf (d : List (String × Node))
    (hc : noCompositeSeq d = true) :
    (((specFlattenAm d).map Prod.fst).Nodup → flatten_dict d = specFlattenAm d) ∧
    (∀ k, pairLookup (flatten_dict d) k = lastVal (specFlattenAm d) k) := by
  constructor
  · intro hnd
    rw [flatten_dict, flattenItems_eq d "" hc (by simpa [specFlattenAm,
      leafEntries, List.map_map, Function.comp_def] using hnd)]
    exact dictOfList_eq_self _ (by simpa [specFlattenAm, leafEntries,
      List.map_map, Function.comp_def] using hnd)
  · intro k
    rw [flatten_dict, pairLookup_eq_lastVal _ _ (nodupKeys_dictOfList _),
      lastVal_dictOfList, flattenItems_lastVal d "" k hc]
    rfl

/-- C4 witness: at a concrete record the hypotheses hold and flatten equals
the keyed leaf entries, whose keys are a_1, b_c, d_0, d_1. -/
theorem C4_flatten_one_entry_per_leaf_witness :
    noCompositeSeq c4Wit = true ∧
    ((specFlattenAm c4Wit).map Prod.fst).Nodup ∧
    flatten_dict c4Wit = specFlattenAm c4Wit ∧
    pairLookup (flatten_dict c4Wit) "b_c" = lastVal (specFlattenAm c4Wit) "b_c" :=
  ⟨by decide, by decide,
   (C4_flatten_one_entry_per_leaf c4Wit (by decide)).1 (by decide),
   (C4_flatten_one_entry_per_leaf c4Wit (by decide)).2 "b_c"⟩

/-- Selecting by names preserves every selected column's values. -/
theorem colVals_selectByNames (t : Table) (names : List String) (n : String)
    (h : n ∈ names) : colVals (selectByNames t names) n = colVals t n := by
  have hlt : names.indexOf n < names.length := List.indexOf_lt_length.mpr h
  unfold colVals selectByNames
  simp only [List.map_map]
  apply List.map_congr_left
  intro r _
  simp only [Function.comp_apply, cellAt, List.getD_eq_getElem?_getD, List.getElem?_map]
  rw [List.getElem?_eq_getElem hlt]
  simp [List.getElem_indexOf hlt]

/-- Membership in the deduplicated names: present in the list and not seen
before. -/
theorem mem_dedupNamesAux (l : List String) :
    ∀ (seen : List String) (x : String),
      x ∈ dedupNamesAux seen l ↔ x ∈ l ∧ x ∉ seen := by
  induction l with
  | nil => simp [dedupNamesAux]
  | cons n rest ih =>
      intro seen x
      by_cases hc : seen.contains n
      · have hn : n ∈ seen := by simpa using hc
        rw [dedupNamesAux, if_pos hc, ih seen x]
        constructor
        · rintro ⟨hx, hs⟩
          exact ⟨List.mem_cons_of_mem n hx, hs⟩
        · rintro ⟨hx, hs⟩
          rcases List.mem_cons.mp hx with rfl | hx
          · exact absurd hn hs
          · exact ⟨hx, hs⟩
      · rw [dedupNamesAux, if_neg hc]
        constructor
        · intro hx
          rcases List.mem_cons.mp hx with rfl | hx
          · exact ⟨List.mem_cons_self x rest, by simpa using hc⟩
          · rw [ih (seen ++ [n]) x] at hx
            refine ⟨List.mem_cons_of_mem n hx.1, fun hs => hx.2 ?_⟩
            simp [hs]
        · rintro ⟨hx, hs⟩
          rcases List.mem_cons.mp hx with rfl | hx
          · exact List.mem_cons_self x _
          · by_cases hxn : x = n
            · exact hxn ▸ List.mem_cons_self x _
            · refine List.mem_cons_of_mem n ((ih (seen ++ [n]) x).mpr ⟨hx, ?_⟩)
              simp [hs, hxn]

/-- The deduplicated names are pairwise distinct. -/
theorem nodup_dedupNamesAux (l : List String) :
    ∀ seen : List String, (dedupNamesAux seen l).Nodup := by
  induction l with
  | nil => intro seen; simp [dedupNamesAux]
  | cons n rest ih =>
      intro seen
      by_cases hc : seen.contains n
      · rw [dedupNamesAux, if_pos hc]; exact ih seen
      · rw [dedupNamesAux, if_neg hc]
        refine List.nodup_cons.mpr ⟨fun hmem => ?_, ih (seen ++ [n])⟩
        exact ((mem_dedupNamesAux rest (seen ++ [n]) n).mp hmem).2 (by simp)

/-- The priority list has no repeated names. -/
theorem priority_cols_nodup : priority_cols.Nodup := by decide

/-- Organizing preserves uniqueness of the column names. -/
theorem organize_cols_nodup (t : Table) (h : t.cols.Nodup) :
    (organize_columns t).cols.Nodup := by
  refine List.nodup_append.mpr ⟨priority_cols_nodup.filter _, h.filter _, ?_⟩
  intro a ha hao
  rcases List.mem_filter.mp hao with ⟨_, hnc⟩
  rw [Bool.not_eq_eq_eq_not, Bool.not_true] at hnc
  exact absurd (by simpa using ha) (by simpa using hnc)

/-- The sort step never changes the column list. -/
theorem sortStep_ok_cols (t' t : Table) (h : sortStep t' = Except.ok t) :
    t.cols = t'.cols := by
  unfold sortStep at h
  split at h
  · exact Except.noConfusion h
  · split at h
    · exact Except.noConfusion h
    · split at h
      · injection h with h2
        rw [← h2]
      · exact Except.noConfusion h

/-- The sort step succeeds exactly when both sort columns are present and
neither mixes strings with numbers. -/
theorem sortStep_ok_iff (t : Table) :
    (∃ u, sortStep t = Except.ok u) ↔
      ("category" ∈ t.cols ∧ "price" ∈ t.cols ∧
        comparableColumn (getColumn t (t.cols.indexOf "category")) = true ∧
        comparableColumn (getColumn t (t.cols.indexOf "price")) = true) := by
  unfold sortStep
  by_cases h1 : "category" ∉ t.cols
  · simp [h1]
  · rw [if_neg h1]
    by_cases h2 : "price" ∉ t.cols
    · simp [h2]
    · rw [if_neg h2]
      by_cases h3 : (comparableColumn (getColumn t (t.cols.indexOf "category")) &&
          comparableColumn (getColumn t (t.cols.indexOf "price"))) = true
      · rw [if_pos h3]
        simp only [Bool.and_eq_true] at h3
        simp [not_not.mp h1, not_not.mp h2, h3]
      · rw [if_neg h3]
        simp only [Bool.and_eq_true, not_and] at h3
        constructor
        · rintro ⟨u, hu⟩
          exact Except.noConfusion hu
        · rintro ⟨_, _, hc, hp⟩
          exact absurd hp (h3 hc)

/-- Every table the reconciler returns has unique column names: the dedup
step makes them unique and the later steps preserve that. -/
theorem reconcile_ok_cols_nodup (b : List (List (String × Val))) (t : Table)
    (h : reconcile b = Except.ok t) : t.cols.Nodup := by
  unfold reconcile process_menu_data at h
  cases hc : convertNumericCols (renameCols (mkDataFrame b)) with
  | error e => rw [hc] at h; exact Except.noConfusion h
  | ok t2 =>
      rw [hc] at h
      simp only [Except.bind] at h
      cases ht : clean_tag_columns t2 with
      | error e => rw [ht] at h; exact Except.noConfusion h
      | ok t3 =>
          rw [ht] at h
          simp only [Except.bind] at h
          rw [sortStep_ok_cols _ _ h]
          exact (organize_cols_nodup (dedupCols t3)
            (nodup_dedupNamesAux t3.cols [])).filter _

/-- C8: after renaming and collapsing, deduplication keeps, for each column
name, only the first-encountered column: the resulting names are unique,
exactly the incoming names as a set, and every retained column keeps the
values of the first occurrence of its name; moreover every table the
reconciler returns has unique column names. -/
theorem C8_dedup_keeps_first_occurrence :
    (∀ t : Table,
      (dedupCols t).cols.Nodup ∧
      (∀ n, n ∈ (dedupCols t).cols ↔ n ∈ t.cols) ∧
      (∀ n, n ∈ t.cols → colVals (dedupCols t) n = colVals t n)) ∧
    (∀ (b : List (List (String × Val))) (t : Table),
      reconcile b = Except.ok t → t.cols.Nodup) := by
  constructor
  · intro t
    refine ⟨nodup_dedupNamesAux t.cols [], fun n => ?_, fun n hn => ?_⟩
    · rw [show (dedupCols t).cols = dedupNames t.cols from rfl, dedupNames,
        mem_dedupNamesAux]
      simp
    · exact colVals_selectByNames t _ n
        ((mem_dedupNamesAux t.cols [] n).mpr ⟨hn, by simp⟩)
  · intro b t h
    exact reconcile_ok_cols_nodup b t h

/-- C9: the column-ordering step only permutes columns — the output column
list is a permutation of the input's, every column keeps its values, the
row count is unchanged, and the output order is the priority columns
present, in priority order, followed by the remaining columns in their
previous relative order. -/
theorem C9_organize_only_permutes (t : Table) (h : t.cols.Nodup) :
    (organize_columns t).cols.Perm t.cols ∧
    (∀ n, n ∈ t.cols → colVals (organize_columns t) n = colVals t n) ∧
    (organize_columns t).rows.length = t.rows.length ∧
    (organize_columns t).cols =
      priority_cols.filter (fun c => t.cols.contains c) ++
        t.cols.filter
          (fun c => !((priority_cols.filter (fun c2 => t.cols.contains c2)).contains c)) := by
  have hmem : ∀ n, n ∈ (organize_columns t).cols ↔ n ∈ t.cols := by
    intro n
    show n ∈ _ ++ _ ↔ _
    rw [List.mem_append]
    constructor
    · rintro (hp | ho)
      · simpa using (List.mem_filter.mp hp).2
      · exact (List.mem_filter.mp ho).1
    · intro hn
      by_cases hp : n ∈ priority_cols.filter (fun c => t.cols.contains c)
      · exact Or.inl hp
      · refine Or.inr (List.mem_filter.mpr ⟨hn, ?_⟩)
        have hp' : n ∈ priority_cols → n ∉ t.cols := by simpa using hp
        by_cases hnp : n ∈ priority_cols
        · exact absurd hn (hp' hnp)
        · simpa using Or.inl hnp
  refine ⟨?_, fun n hn => ?_, ?_, rfl⟩
  · exact (List.perm_ext_iff_of_nodup (organize_cols_nodup t h) h).mpr hmem
  · exact colVals_selectByNames t _ n ((hmem n).mpr hn)
  · simp [organize_columns, selectByNames]

/-- C9 witness: at a concrete table the names are unique, organizing
permutes them to category, price, x, keeps the x column's values and the
row count. -/
theorem C9_organize_only_permutes_witness :
    c9Wit.cols.Nodup ∧
    (organize_columns c9Wit).cols.Perm c9Wit.cols ∧
    colVals (organize_columns c9Wit) "x" = colVals c9Wit "x" ∧
    (organize_columns c9Wit).rows.length = c9Wit.rows.length ∧
    (organize_columns c9Wit).cols = ["category", "price", "x"] :=
  ⟨by decide, (C9_organize_only_permutes c9Wit (by decide)).1,
   (C9_organize_only_permutes c9Wit (by decide)).2.1 "x" (by decide),
   (C9_organize_only_permutes c9Wit (by decide)).2.2.1, by decide⟩

/-- Joining a row whose cells are all missing or empty produces the empty
string (dropna removes the missing cells, the truthiness filter removes the
empty strings, and joining nothing gives ""). -/
theorem joinCells_all_empty (cells : List Val)
    (h : ∀ v ∈ cells, v = Val.null ∨ v = Val.str "") :
    joinCells cells = Except.ok "" := by
  have hk : cells.filter (fun a => a.truthy && !decide (a = Val.null)) = [] := by
    apply List.filter_eq_nil_iff.mpr
    intro v hv
    rcases h v hv with rfl | rfl <;> simp [Val.truthy]
  simp [joinCells, hk, strsOfCells]
  rfl

/-- Inverting a successful row-by-row join: the i-th joined string is the
join of the i-th row's matched cells. -/
theorem joinRows_ok_getD (js : List Nat) (rows : List (List Val))
    (joined : List String) (h : joinRows js rows = Except.ok joined) :
    ∀ i, i < rows.length →
      joinCells (js.map (fun j => cellAt (rows.getD i []) j)) =
        Except.ok (joined.getD i "") := by
  induction rows generalizing joined with
  | nil => intro i hi; simp at hi
  | cons r rs ih =>
      unfold joinRows at h
      cases hs : joinCells (js.map (fun j => cellAt r j)) with
      | error e => rw [hs] at h; exact Except.noConfusion h
      | ok s =>
          rw [hs] at h
          simp only [Except.bind] at h
          cases hrs : joinRows js rs with
          | error e => rw [hrs] at h; exact Except.noConfusion h
          | ok ss =>
              rw [hrs] at h
              simp only [Except.bind] at h
              injection h with h2
              intro i hi
              cases i with
              | zero => simpa [← h2] using hs
              | succ i2 =>
                  simpa [← h2] using ih ss hrs i2 (by simpa using hi)

/-- A list is never a prefix of itself with one more character added. -/
theorem not_isPrefixOf_append_singleton (l : List Char) (c : Char) :
    (l ++ [c]).isPrefixOf l = false := by
  induction l with
  | nil => rfl
  | cons a as ih => simpa [List.isPrefixOf] using ih

/-- The group column name itself never matches the group's indexed
pattern. -/
theorem matchesGroup_self (g : String) : matchesGroup g g = false := by
  unfold matchesGroup
  rw [not_isPrefixOf_append_singleton]
  rfl

/-- The group column is present after the assignment. -/
theorem mem_assignColumn (t : Table) (g : String) (cells : List Val) :
    g ∈ (assignColumn t g cells).cols := by
  unfold assignColumn
  by_cases hg : g ∈ t.cols
  · rw [if_pos hg]; exact hg
  · rw [if_neg hg]; simp

/-- C10: when at least one column matches the group's pattern, collapsing
assigns the group column the row-wise join and drops the matched columns —
the group column is present in the result, and a row all of whose matched
cells are missing or empty receives the empty string as its joined value (a
present empty-string cell, not a missing value). -/
theorem C10_all_empty_row_gets_empty_string :
    (∀ cells : List Val, (∀ v ∈ cells, v = Val.null ∨ v = Val.str "") →
        joinCells cells = Except.ok "") ∧
    (∀ (t : Table) (g : String) (t' : Table),
      collapseGroup t g = Except.ok t' → matchingNames g t ≠ [] →
      g ∈ t'.cols ∧
      ∃ joined,
        joinRows ((matchingNames g t).map (fun c => t.cols.indexOf c)) t.rows =
            Except.ok joined ∧
        t' = dropByNames (assignColumn t g (joined.map Val.str)) (matchingNames g t) ∧
        (∀ i, i < t.rows.length →
          (∀ j ∈ (matchingNames g t).map (fun c => t.cols.indexOf c),
            cellAt (t.rows.getD i []) j = Val.null ∨
              cellAt (t.rows.getD i []) j = Val.str "") →
          joined.getD i "" = "")) := by
  refine ⟨joinCells_all_empty, fun t g t' hok hne => ?_⟩
  unfold collapseGroup at hok
  rw [if_neg (by simpa [List.isEmpty_iff] using hne)] at hok
  cases hj : joinRows ((matchingNames g t).map (fun c => t.cols.indexOf c)) t.rows with
  | error e => rw [hj] at hok; exact Except.noConfusion hok
  | ok joined =>
      rw [hj] at hok
      simp only [Except.bind] at hok
      injection hok with h2
      have hgm : g ∉ matchingNames g t := by
        intro hmem
        have := (List.mem_filter.mp hmem).2
        rw [matchesGroup_self] at this
        exact Bool.noConfusion this
      constructor
      · rw [← h2]
        show g ∈ List.filter _ _
        refine List.mem_filter.mpr ⟨mem_assignColumn t g _, ?_⟩
        simpa using hgm
      · refine ⟨joined, rfl, h2.symm, fun i hi hcells => ?_⟩
        have h1 := joinRows_ok_getD _ _ _ hj i hi
        have h0 : joinCells (((matchingNames g t).map (fun c => t.cols.indexOf c)).map
            (fun j => cellAt (t.rows.getD i []) j)) = Except.ok "" := by
          apply joinCells_all_empty
          intro v hv
          rcases List.mem_map.mp hv with ⟨j, hj2, rfl⟩
          exact hcells j hj2
        rw [h1] at h0
        injection h0 with h3

/-- C10 witness: collapsing the concrete all-empty row yields a table whose
tag_slugs column holds the present empty string, and the join of the
missing-or-empty cells is "". -/
theorem C10_all_empty_row_gets_empty_string_witness :
    joinCells [Val.null, Val.str ""] = Except.ok "" ∧
    "tag_slugs" ∈ (⟨["tag_slugs"], [[Val.str ""]]⟩ : Table).cols ∧
    collapseGroup c10Wit "tag_slugs" =
      Except.ok ⟨["tag_slugs"], [[Val.str ""]]⟩ :=
  ⟨C10_all_empty_row_gets_empty_string.1 [Val.null, Val.str ""] (by decide),
   (C10_all_empty_row_gets_empty_string.2 c10Wit "tag_slugs"
      ⟨["tag_slugs"], [[Val.str ""]]⟩ rfl (by decide)).1,
   rfl⟩

/-- Lexicographic character comparison is transitive. -/
theorem strLtB_trans : ∀ (x y z : List Char),
    strLtB x y = true → strLtB y z = true → strLtB x z = true
  | [], [], _, h1, _ => by simp [strLtB] at h1
  | [], _ :: _, [], _, h2 => by simp [strLtB] at h2
  | [], _ :: _, _ :: _, _, _ => by simp [strLtB]
  | _ :: _, [], _, h1, _ => by simp [strLtB] at h1
  | _ :: _, _ :: _, [], _, h2 => by simp [strLtB] at h2
  | a :: as, b :: bs, c :: cs, h1, h2 => by
      simp only [strLtB, Bool.or_eq_true, Bool.and_eq_true, decide_eq_true_eq,
        beq_iff_eq] at h1 h2 ⊢
      rcases h1 with h1 | ⟨rfl, h1⟩
      · rcases h2 with h2 | ⟨rfl, h2⟩
        · exact Or.inl (lt_trans h1 h2)
        · exact Or.inl h1
      · rcases h2 with h2 | ⟨rfl, h2⟩
        · exact Or.inl h2
        · exact Or.inr ⟨rfl, strLtB_trans as bs cs h1 h2⟩

/-- Two character lists neither of which lexicographically precedes the
other are equal. -/
theorem strLtB_antisymm : ∀ (x y : List Char),
    strLtB x y = false → strLtB y x = false → x = y
  | [], [], _, _ => rfl
  | [], _ :: _, h1, _ => by simp [strLtB] at h1
  | _ :: _, [], _, h2 => by simp [strLtB] at h2
  | a :: as, b :: bs, h1, h2 => by
      have hab : ¬a < b := by
        intro hlt
        have ht : strLtB (a :: as) (b :: bs) = true := by simp [strLtB, hlt]
        rw [h1] at ht
        exact Bool.noConfusion ht
      have hba : ¬b < a := by
        intro hlt
        have ht : strLtB (b :: bs) (a :: as) = true := by simp [strLtB, hlt]
        rw [h2] at ht
        exact Bool.noConfusion ht
      have heq : a = b := le_antisymm (not_lt.mp hba) (not_lt.mp hab)
      subst heq
      have r1 : strLtB as bs = false := by
        by_cases hr : strLtB as bs = true
        · have ht : strLtB (a :: as) (a :: bs) = true := by simp [strLtB, hr]
          rw [h1] at ht
          exact Bool.noConfusion ht
        · exact Bool.eq_false_iff.mpr hr
      have r2 : strLtB bs as = false := by
        by_cases hr : strLtB bs as = true
        · have ht : strLtB (a :: bs) (a :: as) = true := by simp [strLtB, hr]
          rw [h2] at ht
          exact Bool.noConfusion ht
        · exact Bool.eq_false_iff.mpr hr
      rw [strLtB_antisymm as bs r1 r2]

/-- Key equality unpacked into its components. -/
theorem valEqKey_iff (a b : Val) :
    valEqKey a b = true ↔ vRank a = vRank b ∧ vNum a = vNum b ∧ vStr a = vStr b := by
  simp [valEqKey, and_assoc]

/-- The cell order is transitive. -/
theorem valLT_trans (a b c : Val) (h1 : valLT a b = true) (h2 : valLT b c = true) :
    valLT a c = true := by
  simp only [valLT, Bool.or_eq_true, Bool.and_eq_true, decide_eq_true_eq,
    beq_iff_eq] at h1 h2 ⊢
  rcases h1 with h1 | ⟨e1, h1⟩
  · rcases h2 with h2 | ⟨e2, h2⟩
    · exact Or.inl (lt_trans h1 h2)
    · exact Or.inl (by rw [← e2]; exact h1)
  · rcases h2 with h2 | ⟨e2, h2⟩
    · exact Or.inl (by rw [e1]; exact h2)
    · refine Or.inr ⟨e1.trans e2, ?_⟩
      rcases h1 with h1 | ⟨f1, h1⟩
      · rcases h2 with h2 | ⟨f2, h2⟩
        · exact Or.inl (lt_trans h1 h2)
        · exact Or.inl (by rw [← f2]; exact h1)
      · rcases h2 with h2 | ⟨f2, h2⟩
        · exact Or.inl (by rw [f1]; exact h2)
        · exact Or.inr ⟨f1.trans f2, strLtB_trans _ _ _ h1 h2⟩

/-- Two cells neither of which strictly precedes the other share a sort
key. -/
theorem valLT_antisymm (a b : Val) (h1 : valLT a b = false)
    (h2 : valLT b a = false) : valEqKey a b = true := by
  have hr : vRank a = vRank b := by
    rcases Nat.lt_trichotomy (vRank a) (vRank b) with hlt | heq | hgt
    · have ht : valLT a b = true := by simp [valLT, hlt]
      rw [h1] at ht; exact Bool.noConfusion ht
    · exact heq
    · have ht : valLT b a = true := by simp [valLT, hgt]
      rw [h2] at ht; exact Bool.noConfusion ht
  have hn : vNum a = vNum b := by
    rcases Int.lt_trichotomy (vNum a) (vNum b) with hlt | heq | hgt
    · have ht : valLT a b = true := by simp [valLT, hr, hlt]
      rw [h1] at ht; exact Bool.noConfusion ht
    · exact heq
    · have ht : valLT b a = true := by simp [valLT, hr.symm, hgt]
      rw [h2] at ht; exact Bool.noConfusion ht
  have hs : vStr a = vStr b := by
    by_cases hlt : strLtB (vStr a).data (vStr b).data = true
    · have ht : valLT a b = true := by simp [valLT, hr, hn, hlt]
      rw [h1] at ht; exact Bool.noConfusion ht
    · by_cases hgt : strLtB (vStr b).data (vStr a).data = true
      · have ht : valLT b a = true := by simp [valLT, hr.symm, hn.symm, hgt]
        rw [h2] at ht; exact Bool.noConfusion ht
      · exact String.ext (strLtB_antisymm _ _
          (Bool.eq_false_iff.mpr hlt) (Bool.eq_false_iff.mpr hgt))
  simp [valEqKey, hr, hn, hs]

/-- The strict cell order only depends on the sort key (left argument). -/
theorem valLT_congr_left (a a2 b : Val) (h : valEqKey a a2 = true) :
    valLT a b = valLT a2 b := by
  rcases (valEqKey_iff a a2).mp h with ⟨h1, h2, h3⟩
  simp [valLT, h1, h2, h3]

/-- The strict cell order only depends on the sort key (right argument). -/
theorem valLT_congr_right (a b b2 : Val) (h : valEqKey b b2 = true) :
    valLT a b = valLT a b2 := by
  rcases (valEqKey_iff b b2).mp h with ⟨h1, h2, h3⟩
  simp [valLT, h1, h2, h3]

/-- Key equality is symmetric. -/
theorem valEqKey_symm (a b : Val) (h : valEqKey a b = true) : valEqKey b a = true := by
  rcases (valEqKey_iff a b).mp h with ⟨h1, h2, h3⟩
  simp [valEqKey, h1, h2, h3]

/-- Key equality is transitive. -/
theorem valEqKey_trans (a b c : Val) (h1 : valEqKey a b = true)
    (h2 : valEqKey b c = true) : valEqKey a c = true := by
  rcases (valEqKey_iff a b).mp h1 with ⟨x1, x2, x3⟩
  rcases (valEqKey_iff b c).mp h2 with ⟨y1, y2, y3⟩
  simp [valEqKey, x1.trans y1, x2.trans y2, x3.trans y3]

/-- The row order of the sort step is transitive. -/
theorem rowLE_trans (ci pj : Nat) (r s u : List Val)
    (h1 : rowLE ci pj r s = true) (h2 : rowLE ci pj s u = true) :
    rowLE ci pj r u = true := by
  simp only [rowLE, Bool.or_eq_true, Bool.and_eq_true] at h1 h2 ⊢
  rcases h1 with h1 | ⟨e1, p1⟩
  · rcases h2 with h2 | ⟨e2, p2⟩
    · exact Or.inl (valLT_trans _ _ _ h1 h2)
    · exact Or.inl (by rw [valLT_congr_right _ _ _ e2] at h1; exact h1)
  · rcases h2 with h2 | ⟨e2, p2⟩
    · exact Or.inl (by rw [← valLT_congr_left _ _ _ e1] at h2; exact h2)
    · refine Or.inr ⟨valEqKey_trans _ _ _ e1 e2, ?_⟩
      rcases p1 with p1 | p1
      · rcases p2 with p2 | p2
        · exact Or.inl (valLT_trans _ _ _ p1 p2)
        · exact Or.inl (by rw [valLT_congr_right _ _ _ p2] at p1; exact p1)
      · rcases p2 with p2 | p2
        · exact Or.inl (by rw [← valLT_congr_left _ _ _ p1] at p2; exact p2)
        · exact Or.inr (valEqKey_trans _ _ _ p1 p2)

/-- The row order of the sort step is total. -/
theorem rowLE_total (ci pj : Nat) (r s : List Val) :
    rowLE ci pj r s = true ∨ rowLE ci pj s r = true := by
  simp only [rowLE, Bool.or_eq_true, Bool.and_eq_true]
  by_cases c1 : valLT (cellAt r ci) (cellAt s ci) = true
  · exact Or.inl (Or.inl c1)
  · by_cases c2 : valLT (cellAt s ci) (cellAt r ci) = true
    · exact Or.inr (Or.inl c2)
    · have ce : valEqKey (cellAt r ci) (cellAt s ci) = true :=
        valLT_antisymm _ _ (Bool.eq_false_iff.mpr c1) (Bool.eq_false_iff.mpr c2)
      by_cases p1 : valLT (cellAt r pj) (cellAt s pj) = true
      · exact Or.inl (Or.inr ⟨ce, Or.inl p1⟩)
      · by_cases p2 : valLT (cellAt s pj) (cellAt r pj) = true
        · exact Or.inr (Or.inr ⟨valEqKey_symm _ _ ce, Or.inl p2⟩)
        · exact Or.inl (Or.inr ⟨ce, Or.inr (valLT_antisymm _ _
            (Bool.eq_false_iff.mpr p1) (Bool.eq_false_iff.mpr p2))⟩)

/-- C7: whenever the reconciler returns a table, its rows are sorted by the
category column ascending and then the price column ascending (missing keys
ordered last, as the sort step orders them). -/
theorem C7_reconciled_rows_sorted (b : List (List (String × Val))) (t : Table)
    (h : reconcile b = Except.ok t) :
    List.Sorted
      (fun r s => rowLE (t.cols.indexOf "category") (t.cols.indexOf "price") r s = true)
      t.rows := by
  unfold reconcile process_menu_data at h
  cases hc : convertNumericCols (renameCols (mkDataFrame b)) with
  | error e => rw [hc] at h; exact Except.noConfusion h
  | ok t2 =>
      rw [hc] at h
      simp only [Except.bind] at h
      cases ht : clean_tag_columns t2 with
      | error e => rw [ht] at h; exact Except.noConfusion h
      | ok t3 =>
          rw [ht] at h
          simp only [Except.bind] at h
          unfold sortStep at h
          split at h
          · exact Except.noConfusion h
          · split at h
            · exact Except.noConfusion h
            · split at h
              · injection h with h2
                rw [← h2]
                haveI hTr : IsTrans (List Val) (fun r s =>
                    rowLE (List.indexOf "category"
                        (dropDenylist (organize_columns (dedupCols t3))).cols)
                      (List.indexOf "price"
                        (dropDenylist (organize_columns (dedupCols t3))).cols) r s = true) :=
                  ⟨fun x y z => rowLE_trans _ _ x y z⟩
                haveI hTo : IsTotal (List Val) (fun r s =>
                    rowLE (List.indexOf "category"
                        (dropDenylist (organize_columns (dedupCols t3))).cols)
                      (List.indexOf "price"
                        (dropDenylist (organize_columns (dedupCols t3))).cols) r s = true) :=
                  ⟨fun x y => rowLE_total _ _ x y⟩
                exact List.sorted_insertionSort _ _
              · exact Except.noConfusion h

/-- C7 witness: the example batch reconciles to the Mains-first table and
the theorem applies to it. -/
theorem C7_reconciled_rows_sorted_witness :
    reconcile c7Batch = Except.ok c7Expected ∧
    List.Sorted
      (fun r s =>
        rowLE (c7Expected.cols.indexOf "category") (c7Expected.cols.indexOf "price") r s
          = true)
      c7Expected.rows :=
  ⟨rfl, C7_reconciled_rows_sorted c7Batch c7Expected rfl⟩

/-- C3 counterexample: a nonempty batch carrying both sort columns still
makes reconcile raise — the malformed (non-string, truthy) cell in a
collapsed indexed-group column fails the comma-join — contradicting the
claim that reconcile never raises for malformed cells and returns a table
whenever the batch is nonempty and the sort columns are present. -/
theorem C3_counterexample :
    reconcile c3Batch = Except.error Err.typeError ∧
    c3Batch ≠ [] ∧
    "category" ∈ unionKeys c3Batch ∧ "price" ∈ unionKeys c3Batch :=
  ⟨rfl, by decide, by decide, by decide⟩

/-- One numeric-column conversion succeeds exactly when the label is not
duplicated. -/
theorem convertOne_ok_iff (t : Table) (c : String) :
    (∃ u, convertOne t c = Except.ok u) ↔ t.cols.count c ≤ 1 := by
  unfold convertOne
  by_cases h0 : t.cols.count c = 0
  · simp [h0, pure, Except.pure]
  · rw [if_neg h0]
    by_cases h1 : 1 < t.cols.count c
    · rw [if_pos h1]
      constructor
      · rintro ⟨u, hu⟩
        exact Except.noConfusion hu
      · intro hle
        omega
    · rw [if_neg h1]
      constructor
      · intro _
        omega
      · intro _
        exact ⟨_, rfl⟩

/-- One numeric-column conversion never changes the column names. -/
theorem convertOne_ok_cols (t : Table) (c : String) (u : Table)
    (h : convertOne t c = Except.ok u) : u.cols = t.cols := by
  unfold convertOne at h
  split at h
  · injection h with h2
    rw [← h2]
  · split at h
    · exact Except.noConfusion h
    · injection h with h2
      rw [← h2]
      rfl

/-- Folding the conversions succeeds exactly when no listed label is
duplicated. -/
theorem foldConvert_ok_iff (cs : List String) :
    ∀ t : Table,
      (∃ u, cs.foldlM convertOne t = Except.ok u) ↔
        ∀ c ∈ cs, t.cols.count c ≤ 1 := by
  induction cs with
  | nil => intro t; simp [List.foldlM, pure, Except.pure]
  | cons c cs' ih =>
      intro t
      rw [List.foldlM_cons]
      cases hc : convertOne t c with
      | error e =>
          constructor
          · rintro ⟨u, hu⟩
            simp only [bind, Except.bind] at hu
            exact Except.noConfusion hu
          · intro hall
            rcases (convertOne_ok_iff t c).mpr (hall c (by simp)) with ⟨u, hu⟩
            rw [hu] at hc
            exact Except.noConfusion hc
      | ok t' =>
          simp only [bind, Except.bind]
          have hcols := convertOne_ok_cols t c t' hc
          rw [ih t']
          constructor
          · intro hall
            intro c2 hc2
            rcases List.mem_cons.mp hc2 with rfl | hc2
            · exact (convertOne_ok_iff t c2).mp ⟨t', hc⟩
            · rw [← hcols]
              exact hall c2 hc2
          · intro hall c2 hc2
            rw [hcols]
            exact hall c2 (List.mem_cons_of_mem c hc2)

/-- C3 amended: reconcile raises exactly when one of its fallible steps
fails — the numeric conversion (a numeric-set column name duplicated by
renaming), the indexed-group collapsing (a truthy non-string cell in a
matched column), or the sort (a sort column absent, or mixing strings with
numbers); the empty batch raises the same missing-category error as any
batch lacking that column, not a distinct empty-batch signal; and the sort
step itself fails exactly when category or price is absent or a sort column
mixes strings with numbers. -/
theorem C3_failure_conditions :
    (∀ b : List (List (String × Val)),
      (∃ u, reconcile b = Except.ok u) ↔
        ((∃ u, convertNumericCols (renameCols (mkDataFrame b)) = Except.ok u) ∧
         (∃ u, clean_tag_columns
            (okD (convertNumericCols (renameCols (mkDataFrame b)))) = Except.ok u) ∧
         (∃ u, sortStep (dropDenylist (organize_columns (dedupCols
            (okD (clean_tag_columns
              (okD (convertNumericCols (renameCols (mkDataFrame b))))))))) =
                Except.ok u))) ∧
    reconcile [] = Except.error (Err.keyError "category") ∧
    (∀ t : Table,
      (∃ u, sortStep t = Except.ok u) ↔
        ("category" ∈ t.cols ∧ "price" ∈ t.cols ∧
          comparableColumn (getColumn t (t.cols.indexOf "category")) = true ∧
          comparableColumn (getColumn t (t.cols.indexOf "price")) = true)) ∧
    (∀ t : Table,
      (∃ u, convertNumericCols t = Except.ok u) ↔
        ∀ c ∈ numeric_cols, t.cols.count c ≤ 1) := by
  refine ⟨fun b => ?_, rfl, sortStep_ok_iff, foldConvert_ok_iff numeric_cols⟩
  unfold reconcile process_menu_data
  cases hc : convertNumericCols (renameCols (mkDataFrame b)) with
  | error e =>
      constructor
      · rintro ⟨u, hu⟩
        simp only [Except.bind] at hu
        exact Except.noConfusion hu
      · rintro ⟨⟨u, hu⟩, _, _⟩
        exact Except.noConfusion hu
  | ok t2 =>
      simp only [Except.bind, okD]
      cases ht : clean_tag_columns t2 with
      | error e =>
          constructor
          · rintro ⟨u, hu⟩
            simp only [Except.bind] at hu
            exact Except.noConfusion hu
          · rintro ⟨_, ⟨u, hu⟩, _⟩
            exact Except.noConfusion hu
      | ok t3 =>
          simp only [Except.bind, okD]
          constructor
          · rintro ⟨u, hu⟩
            exact ⟨⟨t2, rfl⟩, ⟨t3, rfl⟩, ⟨u, hu⟩⟩
          · rintro ⟨_, _, ⟨u, hu⟩⟩
            exact ⟨u, hu⟩

/-- C3 amended witness: a batch all of whose steps succeed reconciles to a
table; a table with both sort columns and no rows sorts; a table without
duplicated numeric labels converts. -/
theorem C3_failure_conditions_witness :
    ((∃ u, convertNumericCols (renameCols (mkDataFrame c7Batch)) = Except.ok u) ∧
     (∃ u, clean_tag_columns
        (okD (convertNumericCols (renameCols (mkDataFrame c7Batch)))) = Except.ok u) ∧
     (∃ u, sortStep (dropDenylist (organize_columns (dedupCols
        (okD (clean_tag_columns
          (okD (convertNumericCols (renameCols (mkDataFrame c7Batch))))))))) =
            Except.ok u)) ∧
    (∃ u, sortStep ⟨["category", "price"], ([] : List (List Val))⟩ = Except.ok u) ∧
    (∃ u, convertNumericCols ⟨["price"], [[Val.str "3"]]⟩ = Except.ok u) :=
  ⟨(C3_failure_conditions.1 c7Batch).mp ⟨_, rfl⟩,
   (C3_failure_conditions.2.2.1 ⟨["category", "price"], ([] : List (List Val))⟩).mpr
     (by constructor
         · decide
         · constructor
           · decide
           · constructor <;> rfl),
   (C3_failure_conditions.2.2.2 ⟨["price"], [[Val.str "3"]]⟩).mpr (by decide)⟩

/-- C8 witness: deduplicating the concrete duplicated table keeps the first
desc column's value "x", and the reconciled batch with colliding desc
columns has unique column names with the first-encountered value
retained. -/
theorem C8_dedup_keeps_first_occurrence_witness :
    (dedupCols c8Wit).cols.Nodup ∧
    ("desc" ∈ (dedupCols c8Wit).cols ↔ "desc" ∈ c8Wit.cols) ∧
    colVals (dedupCols c8Wit) "desc" = colVals c8Wit "desc" ∧
    reconcile c8Batch =
      Except.ok ⟨["category", "price", "desc"],
                 [[Val.str "A", Val.num 2, Val.str "x"]]⟩ ∧
    (⟨["category", "price", "desc"],
      [[Val.str "A", Val.num 2, Val.str "x"]]⟩ : Table).cols.Nodup :=
  ⟨(C8_dedup_keeps_first_occurrence.1 c8Wit).1,
   (C8_dedup_keeps_first_occurrence.1 c8Wit).2.1 "desc",
   (C8_dedup_keeps_first_occurrence.1 c8Wit).2.2 "desc" (by decide),
   rfl,
   C8_dedup_keeps_first_occurrence.2 c8Batch _ rfl⟩
